import Mathlib

/-!
Verification of the pair-matching core of the immich-stack tool
(`stack.py`): filename canonicalization, similar-filename detection,
duplicate-pair filtering, and the album-derived candidate feed.

Filenames are modelled as `List Char` (Python `str`).  Fields read from
JSON dictionaries with `.get` are modelled as `Option`: `None`/missing
keys both map to `none`.  The regex character class `\d` is modelled as
the ASCII digits, and `str.lower` as ASCII lowercasing, which is what the
tool's inputs exercise.
-/

namespace ImmichStack

/-- Python strings. -/
abbrev Str := List Char

/-- Model of `os.path.basename` on POSIX: everything after the last `/`. -/
def basenamePart (p : Str) : Str :=
  (p.reverse.takeWhile (fun c => decide (c ≠ '/'))).reverse

/-- Model of `posixpath.splitext` applied to a path with no directory
separator: split at the last `.`, unless every character before that dot
is itself a dot (leading-dot filenames such as `.bashrc` have no
extension). -/
def splitextBase (b : Str) : Str × Str :=
  match b.reverse.dropWhile (fun c => decide (c ≠ '.')) with
  | [] => (b, [])
  | _ :: rest =>
      if rest.any (fun c => decide (c ≠ '.')) then
        (rest.reverse, '.' :: (b.reverse.takeWhile (fun c => decide (c ≠ '.'))).reverse)
      else (b, [])

/-- Model of `os.path.splitext`: the extension lives entirely in the
basename component; the root keeps the directory part. -/
def splitext (p : Str) : Str × Str :=
  (p.take (p.length - (basenamePart p).length) ++ (splitextBase (basenamePart p)).1,
   (splitextBase (basenamePart p)).2)

/-- `stem = os.path.splitext(os.path.basename(filename))[0]` from
`canonical_basename` in `stack.py`. -/
def stemOf (filename : Str) : Str :=
  (splitext (basenamePart filename)).1

/-- `os.path.splitext(f)[1].lower()`, as computed for the extension lists
in `is_similar_filename` and `filter_dupe_pairs`. -/
def extLowerOf (f : Str) : Str :=
  (splitext f).2.map Char.toLower

/-- Model of `CANONICAL_RE.match(stem)` for
`CANONICAL_RE = ^([A-Za-z]+_\d{8}_\d+)`: a nonempty maximal run of ASCII
letters, an underscore, exactly eight digits, an underscore, and a
nonempty maximal run of digits; returns the matched prefix.  (Since the
letter run, the fixed-width digit block and the greedy trailing digit
run leave the regex engine no backtracking freedom, the match is this
deterministic decomposition.) -/
def matchCanonical (stem : Str) : Option Str :=
  if stem.takeWhile Char.isAlpha ≠ [] ∧
      (stem.dropWhile Char.isAlpha).head? = some '_' ∧
      (((stem.dropWhile Char.isAlpha).drop 1).take 8).length = 8 ∧
      (((stem.dropWhile Char.isAlpha).drop 1).take 8).all Char.isDigit = true ∧
      (((stem.dropWhile Char.isAlpha).drop 1).drop 8).head? = some '_' ∧
      ((((stem.dropWhile Char.isAlpha).drop 1).drop 8).drop 1).takeWhile Char.isDigit ≠ [] then
    some (stem.takeWhile Char.isAlpha ++
      '_' :: (((stem.dropWhile Char.isAlpha).drop 1).take 8 ++
        '_' :: ((((stem.dropWhile Char.isAlpha).drop 1).drop 8).drop 1).takeWhile Char.isDigit))
  else none

/-- `canonical_basename` from `stack.py`: the device-timestamp match if
it succeeds, otherwise `re.split(r'[.-]', stem, maxsplit=1)[0]`. -/
def canonical_basename (filename : Str) : Str :=
  (matchCanonical (stemOf filename)).getD
    ((stemOf filename).takeWhile (fun c => decide (c ≠ '.' ∧ c ≠ '-')))

/-- Error taxonomy of the core: the `ValueError` raised by
`is_similar_filename` on wrong arity. -/
inductive StackError where
  | invalidArity
deriving DecidableEq, Repr

/-- `is_similar_filename` from `stack.py`.  The Python `raise ValueError`
is modelled as `Except.error`. -/
def is_similar_filename (filenames : List Str) : Except StackError Bool :=
  match filenames with
  | [f0, f1] =>
      if canonical_basename f0 = [] ∨ canonical_basename f1 = [] then Except.ok false
      else if canonical_basename f0 ≠ canonical_basename f1 then Except.ok false
      else if extLowerOf f0 = extLowerOf f1 then Except.ok false
      else Except.ok true
  | _ => Except.error StackError.invalidArity

/-- `PREFERRED_PRIMARY_EXTS = {".jpg", ".jpeg", ".jpe"}`. -/
def PREFERRED_PRIMARY_EXTS : List Str :=
  [".jpg".toList, ".jpeg".toList, ".jpe".toList]

/-- An asset dictionary as consumed by `filter_dupe_pairs`: the three
keys it reads, each possibly missing. -/
structure Asset where
  id : Option Str
  originalPath : Option Str
  filename : Option Str
deriving DecidableEq, Repr, Inhabited

/-- Python's `x or y` for a string-or-missing `x`: falls through on
`None` and on the empty string. -/
def pyOr (x : Option Str) (y : Str) : Str :=
  match x with
  | some s => if s = [] then y else s
  | none => y

/-- `asset.get("originalPath") or asset.get("filename") or ""` from
`filter_dupe_pairs`. -/
def effectiveName (a : Asset) : Str :=
  pyOr a.originalPath (pyOr a.filename [])

/-- A duplicate group: `group.get("assets", [])` reads a possibly
missing list. -/
structure Group where
  assets : Option (List Asset)
deriving DecidableEq, Repr, Inhabited

/-- One emitted record of `filter_dupe_pairs`:
`{"ids": ..., "paths": ..., "exts": ...}`. -/
structure PairResult where
  ids : List (Option Str)
  paths : List Str
  exts : List Str
deriving DecidableEq, Repr, Inhabited

/-- The `primary_index` computation of `filter_dupe_pairs`, as a function
of the two lowercased extensions. -/
def primary_index (e0 e1 : Str) : Nat :=
  if e1 ∈ PREFERRED_PRIMARY_EXTS ∧ e0 ∉ PREFERRED_PRIMARY_EXTS then 1
  else if e0 ∈ PREFERRED_PRIMARY_EXTS ∧ e1 ∉ PREFERRED_PRIMARY_EXTS then 0
  else 0

/-- The record built for a matching pair: `[x[primary_index],
x[1 - primary_index]]` applied to ids, paths and exts. -/
def orderedResult (a0 a1 : Asset) : PairResult :=
  if primary_index (extLowerOf (effectiveName a0)) (extLowerOf (effectiveName a1)) = 1 then
    { ids := [a1.id, a0.id]
      paths := [effectiveName a1, effectiveName a0]
      exts := [extLowerOf (effectiveName a1), extLowerOf (effectiveName a0)] }
  else
    { ids := [a0.id, a1.id]
      paths := [effectiveName a0, effectiveName a1]
      exts := [extLowerOf (effectiveName a0), extLowerOf (effectiveName a1)] }

/-- `filter_dupe_pairs` from `stack.py`.  A raised error from
`is_similar_filename` would abort the whole loop, hence the `Except`
propagation; groups without exactly two assets are skipped. -/
def filter_dupe_pairs : List Group → Except StackError (List PairResult)
  | [] => Except.ok []
  | g :: rest =>
      match g.assets.getD [] with
      | [a0, a1] =>
          match is_similar_filename [effectiveName a0, effectiveName a1] with
          | Except.error e => Except.error e
          | Except.ok false => filter_dupe_pairs rest
          | Except.ok true =>
              match filter_dupe_pairs rest with
              | Except.error e => Except.error e
              | Except.ok tail => Except.ok (orderedResult a0 a1 :: tail)
      | _ => filter_dupe_pairs rest

/-- The per-group outcome of `filter_dupe_pairs`: `none` when the group
is skipped, `some r` when it contributes the record `r`. -/
def processGroup (g : Group) : Option PairResult :=
  match g.assets.getD [] with
  | [a0, a1] =>
      match is_similar_filename [effectiveName a0, effectiveName a1] with
      | Except.ok true => some (orderedResult a0 a1)
      | _ => none
  | _ => none

/-- An asset of an album listing: `pic["originalPath"]` is accessed
unconditionally by the sort key, so the field is required here. -/
structure AlbumAsset where
  id : Option Str
  originalPath : Str
  filename : Option Str
deriving DecidableEq, Repr, Inhabited

/-- One candidate group produced by `get_assets_in_album`:
`{"duplicateId": i + 1, "assets": (assets[i], assets[i + 1])}`. -/
structure AlbumGroup where
  duplicateId : Nat
  assets : AlbumAsset × AlbumAsset
deriving DecidableEq, Repr, Inhabited

/-- Python string `<=`: lexicographic comparison by code point, with a
proper prefix ordered first. -/
def strLe : Str → Str → Bool
  | [], _ => true
  | _ :: _, [] => false
  | a :: as, b :: bs => if a < b then true else if b < a then false else strLe as bs

/-- `sorted(album.get("assets", []), key=lambda pic: pic["originalPath"])`:
a stable sort by the `originalPath` key. -/
def sortedByPath (l : List AlbumAsset) : List AlbumAsset :=
  l.mergeSort (fun a b => strLe a.originalPath b.originalPath)

/-- The pairing part of `get_assets_in_album`: sort by path, then emit
the overlapping adjacent pairs `(assets[i], assets[i+1])` for
`i in range(len(assets) - 1)`. -/
def get_assets_in_album (albumAssets : List AlbumAsset) : List AlbumGroup :=
  (List.range ((sortedByPath albumAssets).length - 1)).map (fun i =>
    { duplicateId := i + 1
      assets := ((sortedByPath albumAssets).getD i default,
                 (sortedByPath albumAssets).getD (i + 1) default) })

/-! ### List helper lemmas -/

theorem takeWhile_append_of (p : Char → Bool) :
    ∀ l r : Str, (∀ c ∈ l, p c = true) → (∀ c, r.head? = some c → p c = false) →
      (l ++ r).takeWhile p = l
  | [], r, _, hr => by
      cases r with
      | nil => rfl
      | cons c cs => simp [List.takeWhile_cons, hr c rfl]
  | a :: l, r, hl, hr => by
      have ha : p a = true := hl a (by simp)
      simp only [List.cons_append, List.takeWhile_cons, ha, if_true]
      rw [takeWhile_append_of p l r (fun c hc => hl c (by simp [hc])) hr]

theorem dropWhile_append_of (p : Char → Bool) :
    ∀ l r : Str, (∀ c ∈ l, p c = true) → (∀ c, r.head? = some c → p c = false) →
      (l ++ r).dropWhile p = r
  | [], r, _, hr => by
      cases r with
      | nil => rfl
      | cons c cs => simp [List.dropWhile_cons, hr c rfl]
  | a :: l, r, hl, hr => by
      have ha : p a = true := hl a (by simp)
      simp only [List.cons_append, List.dropWhile_cons, ha, if_true]
      exact dropWhile_append_of p l r (fun c hc => hl c (by simp [hc])) hr

theorem takeWhile_eq_self_of (p : Char → Bool) (l : Str) (hl : ∀ c ∈ l, p c = true) :
    l.takeWhile p = l := by
  have := takeWhile_append_of p l [] hl (fun c hc => by simp at hc)
  simpa using this

theorem dropWhile_eq_nil_of (p : Char → Bool) (l : Str) (hl : ∀ c ∈ l, p c = true) :
    l.dropWhile p = [] := by
  have := dropWhile_append_of p l [] hl (fun c hc => by simp at hc)
  simpa using this

theorem head_dropWhile_not (p : Char → Bool) :
    ∀ l : Str, ∀ c, (l.dropWhile p).head? = some c → p c = false
  | [], c, h => by simp at h
  | a :: l, c, h => by
      rw [List.dropWhile_cons] at h
      by_cases ha : p a = true
      · rw [if_pos ha] at h
        exact head_dropWhile_not p l c h
      · rw [if_neg ha] at h
        simp only [List.head?_cons, Option.some.injEq] at h
        rw [← h]
        exact Bool.eq_false_iff.mpr ha

theorem takeWhile_eq_nil_iff (p : Char → Bool) (l : Str) :
    l.takeWhile p = [] ↔ l = [] ∨ ∃ c r, l = c :: r ∧ p c = false := by
  cases l with
  | nil => simp
  | cons a l =>
      constructor
      · intro h
        rw [List.takeWhile_cons] at h
        by_cases ha : p a = true
        · rw [if_pos ha] at h
          exact absurd h (List.cons_ne_nil _ _)
        · exact Or.inr ⟨a, l, rfl, Bool.eq_false_iff.mpr ha⟩
      · rintro (h | ⟨c, r, hcr, hc⟩)
        · exact absurd h (List.cons_ne_nil _ _)
        · injection hcr with h1 h2
          subst h1; subst h2
          rw [List.takeWhile_cons, hc]
          simp

theorem cons_head_drop (l : Str) (c : Char) (h : l.head? = some c) :
    l = c :: l.drop 1 := by
  cases l with
  | nil => simp at h
  | cons a t =>
      simp only [List.head?_cons, Option.some.injEq] at h
      rw [← h]
      rfl

/-! ### Character-class facts -/

theorem alpha_ne (c : Char) (h : c.isAlpha = true) :
    c ≠ '.' ∧ c ≠ '-' ∧ c ≠ '/' ∧ c ≠ '_' := by
  refine ⟨?_, ?_, ?_, ?_⟩ <;> rintro rfl <;> exact absurd h (by decide)

theorem digit_ne (c : Char) (h : c.isDigit = true) :
    c ≠ '.' ∧ c ≠ '-' ∧ c ≠ '/' ∧ c ≠ '_' := by
  refine ⟨?_, ?_, ?_, ?_⟩ <;> rintro rfl <;> exact absurd h (by decide)

/-! ### Path-splitting facts -/

theorem mem_basenamePart_ne_slash (p : Str) (c : Char) (hc : c ∈ basenamePart p) :
    c ≠ '/' := by
  unfold basenamePart at hc
  rw [List.mem_reverse] at hc
  have := List.mem_takeWhile_imp hc
  simpa using this

theorem basenamePart_eq_self (p : Str) (h : ∀ c ∈ p, c ≠ '/') :
    basenamePart p = p := by
  unfold basenamePart
  rw [takeWhile_eq_self_of _ p.reverse
        (fun c hc => by simp [h c (List.mem_reverse.mp hc)]),
      List.reverse_reverse]

theorem splitextBase_fst_mem (b : Str) (c : Char) (hc : c ∈ (splitextBase b).1) :
    c ∈ b := by
  unfold splitextBase at hc
  generalize hdrop : b.reverse.dropWhile (fun c => decide (c ≠ '.')) = d at hc
  cases d with
  | nil => exact hc
  | cons x rest =>
      by_cases hr : rest.any (fun c => decide (c ≠ '.')) = true
      · simp only [hr, if_true] at hc
        rw [List.mem_reverse] at hc
        have hmem : c ∈ b.reverse := by
          have h1 : c ∈ x :: rest := List.mem_cons_of_mem x hc
          rw [← hdrop] at h1
          exact (List.dropWhile_sublist _).mem h1
        exact List.mem_reverse.mp hmem
      · simp only [hr, if_false] at hc
        exact hc

theorem splitextBase_no_dot (b : Str) (h : ∀ c ∈ b, c ≠ '.') :
    splitextBase b = (b, []) := by
  unfold splitextBase
  rw [dropWhile_eq_nil_of _ b.reverse
        (fun c hc => by simp [h c (List.mem_reverse.mp hc)])]

theorem stemOf_eq (f : Str) : stemOf f = (splitextBase (basenamePart f)).1 := by
  unfold stemOf splitext
  rw [basenamePart_eq_self (basenamePart f) (mem_basenamePart_ne_slash f)]
  simp

theorem mem_stemOf_ne_slash (f : Str) (c : Char) (hc : c ∈ stemOf f) : c ≠ '/' := by
  rw [stemOf_eq] at hc
  exact mem_basenamePart_ne_slash f c (splitextBase_fst_mem _ c hc)

theorem stemOf_of_clean (x : Str) (hs : ∀ c ∈ x, c ≠ '/') (hd : ∀ c ∈ x, c ≠ '.') :
    stemOf x = x := by
  rw [stemOf_eq, basenamePart_eq_self x hs, splitextBase_no_dot x hd]

/-! ### The device-timestamp pattern, stated declaratively -/

/-- The spec's reading of a successful device-timestamp match: the stem
starts with one or more ASCII letters, `_`, exactly 8 digits, `_`, one
or more digits, and `m` is the matched prefix (the trailing digit run is
greedy, so the remainder cannot begin with a digit). -/
def deviceMatchedPrefixSpec (stem m : Str) : Prop :=
  ∃ L D8 Ds rest, stem = L ++ '_' :: (D8 ++ '_' :: (Ds ++ rest)) ∧
    L ≠ [] ∧ (∀ c ∈ L, c.isAlpha = true) ∧
    D8.length = 8 ∧ (∀ c ∈ D8, c.isDigit = true) ∧
    Ds ≠ [] ∧ (∀ c ∈ Ds, c.isDigit = true) ∧
    (∀ c, rest.head? = some c → c.isDigit = false) ∧
    m = L ++ '_' :: (D8 ++ '_' :: Ds)

/-- The stem starts with letters, `_`, exactly 8 digits, `_`, and at
least one digit (existence of a match, without fixing its end). -/
def anyDeviceDecomp (stem : Str) : Prop :=
  ∃ L D8 Ds rest, stem = L ++ '_' :: (D8 ++ '_' :: (Ds ++ rest)) ∧
    L ≠ [] ∧ (∀ c ∈ L, c.isAlpha = true) ∧
    D8.length = 8 ∧ (∀ c ∈ D8, c.isDigit = true) ∧
    Ds ≠ [] ∧ (∀ c ∈ Ds, c.isDigit = true)

theorem matchCanonical_complete (L D8 r3 : Str)
    (hL : L ≠ []) (hLa : ∀ c ∈ L, c.isAlpha = true)
    (hD8 : D8.length = 8) (hD8d : ∀ c ∈ D8, c.isDigit = true)
    (hr3 : r3.takeWhile Char.isDigit ≠ []) :
    matchCanonical (L ++ '_' :: (D8 ++ '_' :: r3)) =
      some (L ++ '_' :: (D8 ++ '_' :: r3.takeWhile Char.isDigit)) := by
  have hu : ∀ c : Char, ('_' :: (D8 ++ '_' :: r3)).head? = some c → c.isAlpha = false := by
    intro c hc
    simp only [List.head?_cons, Option.some.injEq] at hc
    rw [← hc]; decide
  have htw : (L ++ '_' :: (D8 ++ '_' :: r3)).takeWhile Char.isAlpha = L :=
    takeWhile_append_of _ L _ hLa hu
  have hdw : (L ++ '_' :: (D8 ++ '_' :: r3)).dropWhile Char.isAlpha = '_' :: (D8 ++ '_' :: r3) :=
    dropWhile_append_of _ L _ hLa hu
  unfold matchCanonical
  rw [htw, hdw]
  have h1 : ('_' :: (D8 ++ '_' :: r3)).drop 1 = D8 ++ '_' :: r3 := rfl
  rw [h1, List.take_left' hD8, List.drop_left' hD8]
  have h2 : ('_' :: r3).drop 1 = r3 := rfl
  rw [h2]
  rw [if_pos ⟨hL, rfl, hD8, List.all_eq_true.mpr hD8d, rfl, hr3⟩]

theorem matchCanonical_sound (stem m : Str) (h : matchCanonical stem = some m) :
    deviceMatchedPrefixSpec stem m := by
  unfold matchCanonical at h
  by_cases hcond : stem.takeWhile Char.isAlpha ≠ [] ∧
      (stem.dropWhile Char.isAlpha).head? = some '_' ∧
      (((stem.dropWhile Char.isAlpha).drop 1).take 8).length = 8 ∧
      (((stem.dropWhile Char.isAlpha).drop 1).take 8).all Char.isDigit = true ∧
      (((stem.dropWhile Char.isAlpha).drop 1).drop 8).head? = some '_' ∧
      ((((stem.dropWhile Char.isAlpha).drop 1).drop 8).drop 1).takeWhile Char.isDigit ≠ []
  · rw [if_pos hcond] at h
    obtain ⟨hL, hrest, hD8, hD8d, hmid, hDs⟩ := hcond
    refine ⟨stem.takeWhile Char.isAlpha,
      ((stem.dropWhile Char.isAlpha).drop 1).take 8,
      ((((stem.dropWhile Char.isAlpha).drop 1).drop 8).drop 1).takeWhile Char.isDigit,
      ((((stem.dropWhile Char.isAlpha).drop 1).drop 8).drop 1).dropWhile Char.isDigit,
      ?_, hL, ?_, hD8, ?_, hDs, ?_, ?_, ?_⟩
    · conv_lhs => rw [← List.takeWhile_append_dropWhile Char.isAlpha stem]
      rw [cons_head_drop _ _ hrest]
      congr 1
      congr 1
      conv_lhs => rw [← List.take_append_drop 8 ((stem.dropWhile Char.isAlpha).drop 1)]
      congr 1
      rw [cons_head_drop _ _ hmid]
      congr 1
      exact (List.takeWhile_append_dropWhile Char.isDigit _).symm
    · exact fun c hc => List.mem_takeWhile_imp hc
    · exact fun c hc => List.all_eq_true.mp hD8d c hc
    · exact fun c hc => List.mem_takeWhile_imp hc
    · exact fun c hc => head_dropWhile_not Char.isDigit _ c hc
    · exact (Option.some.injEq .. ▸ h).symm
  · rw [if_neg hcond] at h
    exact absurd h (by simp)

theorem matchCanonical_of_spec (stem m : Str) (h : deviceMatchedPrefixSpec stem m) :
    matchCanonical stem = some m := by
  obtain ⟨L, D8, Ds, rest, hstem, hL, hLa, hD8, hD8d, hDs, hDsd, hmax, hm⟩ := h
  have htw : (Ds ++ rest).takeWhile Char.isDigit = Ds :=
    takeWhile_append_of _ Ds rest hDsd hmax
  have hcomp := matchCanonical_complete L D8 (Ds ++ rest) hL hLa hD8 hD8d
    (by rw [htw]; exact hDs)
  rw [htw] at hcomp
  rw [hstem, hcomp, hm]

theorem matchCanonical_ne_none_of_decomp (stem : Str) (h : anyDeviceDecomp stem) :
    matchCanonical stem ≠ none := by
  obtain ⟨L, D8, Ds, rest, hstem, hL, hLa, hD8, hD8d, hDs, hDsd⟩ := h
  have htw : (Ds ++ rest).takeWhile Char.isDigit ≠ [] := by
    cases Ds with
    | nil => exact absurd rfl hDs
    | cons d t =>
        rw [List.cons_append, List.takeWhile_cons, if_pos (hDsd d (by simp))]
        exact List.cons_ne_nil _ _
  have hcomp := matchCanonical_complete L D8 (Ds ++ rest) hL hLa hD8 hD8d htw
  rw [hstem, hcomp]
  simp

/-! ### Claims about the Canonicalizer -/

/-- C2: for every filename, the canonical basename is the device-pattern
match prefix of the stem when the stem starts with one or more ASCII
letters, `_`, exactly 8 digits, `_`, one or more digits; otherwise it is
the portion of the stem before the first occurrence of `.` or `-`. -/
theorem canonical_basename_characterization (f : Str) :
    (∀ m, deviceMatchedPrefixSpec (stemOf f) m → canonical_basename f = m) ∧
    (¬ anyDeviceDecomp (stemOf f) →
      canonical_basename f = (stemOf f).takeWhile (fun c => decide (c ≠ '.' ∧ c ≠ '-'))) := by
  constructor
  · intro m hm
    unfold canonical_basename
    rw [matchCanonical_of_spec (stemOf f) m hm, Option.getD_some]
  · intro hno
    unfold canonical_basename
    cases hmc : matchCanonical (stemOf f) with
    | some m =>
        obtain ⟨L, D8, Ds, rest, hstem, hL, hLa, hD8, hD8d, hDs, hDsd, -, -⟩ :=
          matchCanonical_sound _ _ hmc
        exact absurd ⟨L, D8, Ds, rest, hstem, hL, hLa, hD8, hD8d, hDs, hDsd⟩ hno
    | none => rw [Option.getD_none]

/-- C2 witness: the device-pattern branch on
`PXL_20250615_143621025.RAW-02.ORIGINAL.dng` and the fallback branch on
`DSC0001-edit.tif`. -/
theorem canonical_basename_characterization_witness :
    (deviceMatchedPrefixSpec (stemOf "PXL_20250615_143621025.RAW-02.ORIGINAL.dng".toList)
        "PXL_20250615_143621025".toList ∧
      canonical_basename "PXL_20250615_143621025.RAW-02.ORIGINAL.dng".toList =
        "PXL_20250615_143621025".toList) ∧
    (¬ anyDeviceDecomp (stemOf "DSC0001-edit.tif".toList) ∧
      canonical_basename "DSC0001-edit.tif".toList = "DSC0001".toList) := by
  have hspec : deviceMatchedPrefixSpec (stemOf "PXL_20250615_143621025.RAW-02.ORIGINAL.dng".toList)
      "PXL_20250615_143621025".toList :=
    ⟨"PXL".toList, "20250615".toList, "143621025".toList, ".RAW-02.ORIGINAL".toList,
      by decide, by decide, by decide, by decide, by decide, by decide, by decide,
      by decide, by decide⟩
  have hno : ¬ anyDeviceDecomp (stemOf "DSC0001-edit.tif".toList) := fun hd =>
    matchCanonical_ne_none_of_decomp _ hd (by decide)
  refine ⟨⟨hspec, (canonical_basename_characterization _).1 _ hspec⟩, hno, ?_⟩
  rw [(canonical_basename_characterization _).2 hno]
  decide

/-- C7 counterexample: the stem of `-a.jpg` is the non-empty string
`-a`, yet the canonical basename is empty, so a non-empty stem does not
guarantee a non-empty canonical basename. -/
theorem canonical_basename_nonempty_counterexample :
    stemOf "-a.jpg".toList = ['-', 'a'] ∧ stemOf "-a.jpg".toList ≠ [] ∧
      canonical_basename "-a.jpg".toList = [] := by
  refine ⟨by decide, by decide, by decide⟩

/-- C7 amended: the canonical basename is empty iff the stem is empty or
the stem begins with `.` or `-`. -/
theorem canonical_basename_empty_iff (f : Str) :
    canonical_basename f = [] ↔
      stemOf f = [] ∨ ∃ c r, stemOf f = c :: r ∧ (c = '.' ∨ c = '-') := by
  unfold canonical_basename
  cases hmc : matchCanonical (stemOf f) with
  | some m =>
      obtain ⟨L, D8, Ds, rest, hstem, hL, hLa, -, -, -, -, -, hm⟩ :=
        matchCanonical_sound _ _ hmc
      rw [Option.getD_some]
      cases L with
      | nil => exact absurd rfl hL
      | cons a t =>
          have ha : a.isAlpha = true := hLa a (by simp)
          constructor
          · intro hnil
            rw [hm] at hnil
            exact absurd hnil (by simp)
          · rintro (h | ⟨c, r, hcr, hc⟩)
            · rw [h] at hstem
              exact absurd hstem.symm (by simp)
            · rw [hcr] at hstem
              injection hstem with h1 _
              rcases hc with rfl | rfl
              · exact absurd ha (by rw [← h1]; decide)
              · exact absurd ha (by rw [← h1]; decide)
  | none =>
      rw [Option.getD_none, takeWhile_eq_nil_iff]
      simp only [decide_eq_false_iff_not, ne_eq, not_and_or, not_not]

/-- C8: canonicalization is idempotent. -/
theorem canonical_basename_idem (f : Str) :
    canonical_basename (canonical_basename f) = canonical_basename f := by
  cases hmc : matchCanonical (stemOf f) with
  | some m =>
      have hcf : canonical_basename f = m := by
        unfold canonical_basename; rw [hmc, Option.getD_some]
      rw [hcf]
      obtain ⟨L, D8, Ds, rest, -, hL, hLa, hD8, hD8d, hDs, hDsd, -, hm⟩ :=
        matchCanonical_sound _ _ hmc
      have hchars : ∀ c ∈ m, c.isAlpha = true ∨ c = '_' ∨ c.isDigit = true := by
        rw [hm]
        intro c hc
        simp only [List.mem_append, List.mem_cons] at hc
        rcases hc with h | h | h | h | h
        · exact Or.inl (hLa c h)
        · exact Or.inr (Or.inl h)
        · exact Or.inr (Or.inr (hD8d c h))
        · exact Or.inr (Or.inl h)
        · exact Or.inr (Or.inr (hDsd c h))
      have hslash : ∀ c ∈ m, c ≠ '/' := by
        intro c hc
        rcases hchars c hc with h | h | h
        · exact (alpha_ne c h).2.2.1
        · rw [h]; decide
        · exact (digit_ne c h).2.2.1
      have hdot : ∀ c ∈ m, c ≠ '.' := by
        intro c hc
        rcases hchars c hc with h | h | h
        · exact (alpha_ne c h).1
        · rw [h]; decide
        · exact (digit_ne c h).1
      unfold canonical_basename
      rw [stemOf_of_clean m hslash hdot]
      have hDst : Ds.takeWhile Char.isDigit = Ds := takeWhile_eq_self_of _ Ds hDsd
      have hcm : matchCanonical m = some m := by
        rw [hm]
        have := matchCanonical_complete L D8 Ds hL hLa hD8 hD8d (by rw [hDst]; exact hDs)
        rw [hDst] at this
        exact this
      rw [hcm, Option.getD_some]
  | none =>
      have hcf : canonical_basename f =
          (stemOf f).takeWhile (fun c => decide (c ≠ '.' ∧ c ≠ '-')) := by
        unfold canonical_basename; rw [hmc, Option.getD_none]
      rw [hcf]
      have hq : ∀ x ∈ (stemOf f).takeWhile (fun c => decide (c ≠ '.' ∧ c ≠ '-')),
          x ≠ '.' ∧ x ≠ '-' := by
        intro x hx
        have := List.mem_takeWhile_imp hx
        simpa using this
      have hslash : ∀ x ∈ (stemOf f).takeWhile (fun c => decide (c ≠ '.' ∧ c ≠ '-')),
          x ≠ '/' := by
        intro x hx
        exact mem_stemOf_ne_slash f x ((List.takeWhile_sublist _).mem hx)
      unfold canonical_basename
      rw [stemOf_of_clean _ hslash (fun x hx => (hq x hx).1)]
      have hmc2 : matchCanonical ((stemOf f).takeWhile (fun c => decide (c ≠ '.' ∧ c ≠ '-'))) =
          none := by
        cases hmc2 : matchCanonical ((stemOf f).takeWhile (fun c => decide (c ≠ '.' ∧ c ≠ '-'))) with
        | none => rfl
        | some m2 =>
            obtain ⟨L, D8, Ds, rest, hfb, hL, hLa, hD8, hD8d, hDs, hDsd, -, -⟩ :=
              matchCanonical_sound _ _ hmc2
            have hsplit : stemOf f =
                (stemOf f).takeWhile (fun c => decide (c ≠ '.' ∧ c ≠ '-')) ++
                  (stemOf f).dropWhile (fun c => decide (c ≠ '.' ∧ c ≠ '-')) :=
              (List.takeWhile_append_dropWhile _ _).symm
            have hdec : anyDeviceDecomp (stemOf f) := by
              refine ⟨L, D8, Ds,
                rest ++ (stemOf f).dropWhile (fun c => decide (c ≠ '.' ∧ c ≠ '-')),
                ?_, hL, hLa, hD8, hD8d, hDs, hDsd⟩
              conv_lhs => rw [hsplit, hfb]
              simp only [List.append_assoc, List.cons_append]
            exact absurd hmc (matchCanonical_ne_none_of_decomp _ hdec)
      rw [hmc2, Option.getD_none]
      exact takeWhile_eq_self_of _ _ (fun x hx => by
        simp only [decide_eq_true_eq]
        exact hq x hx)

/-! ### Claims about the Pair Matcher -/

/-- C1: on a two-element input, `is_similar_filename` returns `true` iff
both canonical basenames are non-empty, the canonical basenames are
equal (case-sensitively), and the lowercased extensions differ; in every
other case it returns `false`. -/
theorem is_similar_filename_characterization (a b : Str) :
    is_similar_filename [a, b] =
      Except.ok (decide (canonical_basename a ≠ [] ∧ canonical_basename b ≠ [] ∧
        canonical_basename a = canonical_basename b ∧ extLowerOf a ≠ extLowerOf b)) := by
  show (if canonical_basename a = [] ∨ canonical_basename b = [] then Except.ok false
      else if canonical_basename a ≠ canonical_basename b then Except.ok false
      else if extLowerOf a = extLowerOf b then Except.ok false
      else Except.ok true) = _
  by_cases h1 : canonical_basename a = [] ∨ canonical_basename b = []
  · rw [if_pos h1]
    congr 1
    symm
    rw [decide_eq_false_iff_not]
    rintro ⟨ha, hb, -, -⟩
    rcases h1 with h | h
    · exact ha h
    · exact hb h
  · rw [if_neg h1]
    push_neg at h1
    by_cases h2 : canonical_basename a ≠ canonical_basename b
    · rw [if_pos h2]
      congr 1
      symm
      rw [decide_eq_false_iff_not]
      rintro ⟨-, -, heq, -⟩
      exact h2 heq
    · rw [if_neg h2]
      push_neg at h2
      by_cases h3 : extLowerOf a = extLowerOf b
      · rw [if_pos h3]
        congr 1
        symm
        rw [decide_eq_false_iff_not]
        rintro ⟨-, -, -, hne⟩
        exact hne h3
      · rw [if_neg h3]
        congr 1
        symm
        rw [decide_eq_true_eq]
        exact ⟨h1.1, h1.2, h2, h3⟩

/-- C10: the match decision is symmetric in its two inputs. -/
theorem is_similar_filename_symm (a b : Str) :
    is_similar_filename [a, b] = is_similar_filename [b, a] := by
  show (if canonical_basename a = [] ∨ canonical_basename b = [] then Except.ok false
      else if canonical_basename a ≠ canonical_basename b then Except.ok false
      else if extLowerOf a = extLowerOf b then Except.ok false
      else Except.ok true) =
    (if canonical_basename b = [] ∨ canonical_basename a = [] then Except.ok false
      else if canonical_basename b ≠ canonical_basename a then Except.ok false
      else if extLowerOf b = extLowerOf a then Except.ok false
      else Except.ok true)
  by_cases h1 : canonical_basename a = [] ∨ canonical_basename b = []
  · rw [if_pos h1, if_pos (Or.symm h1)]
  · rw [if_neg h1,
      if_neg (show ¬(canonical_basename b = [] ∨ canonical_basename a = []) from
        fun h => h1 (Or.symm h))]
    by_cases h2 : canonical_basename a = canonical_basename b
    · rw [if_neg (show ¬(canonical_basename a ≠ canonical_basename b) from fun hne => hne h2),
        if_neg (show ¬(canonical_basename b ≠ canonical_basename a) from fun hne => hne h2.symm)]
      by_cases h3 : extLowerOf a = extLowerOf b
      · rw [if_pos h3, if_pos h3.symm]
      · rw [if_neg h3,
          if_neg (show ¬(extLowerOf b = extLowerOf a) from fun h => h3 h.symm)]
    · rw [if_pos h2,
        if_pos (show canonical_basename b ≠ canonical_basename a from fun h => h2 h.symm)]

/-- Any two-element input yields an `ok` result (shared helper). -/
theorem similar_pair_ok (x y : Str) : ∃ c, is_similar_filename [x, y] = Except.ok c := by
  show ∃ c, (if canonical_basename x = [] ∨ canonical_basename y = [] then Except.ok false
      else if canonical_basename x ≠ canonical_basename y then Except.ok false
      else if extLowerOf x = extLowerOf y then Except.ok false
      else Except.ok true) = Except.ok c
  split_ifs <;> exact ⟨_, rfl⟩

/-- C5: `is_similar_filename` raises exactly on inputs whose length is
not two, and never on two-element inputs. -/
theorem is_similar_filename_arity (fs : List Str) :
    (fs.length ≠ 2 → is_similar_filename fs = Except.error StackError.invalidArity) ∧
    (fs.length = 2 → ∃ c, is_similar_filename fs = Except.ok c) := by
  match fs with
  | [] => exact ⟨fun _ => rfl, fun h => absurd h (by simp)⟩
  | [x] => exact ⟨fun _ => rfl, fun h => absurd h (by simp)⟩
  | [x, y] => exact ⟨fun h => absurd rfl h, fun _ => similar_pair_ok x y⟩
  | x :: y :: z :: rest =>
      refine ⟨fun _ => rfl, fun h => ?_⟩
      simp only [List.length_cons] at h
      omega

/-- C5 witness: a one-element input raises, a two-element input does
not. -/
theorem is_similar_filename_arity_witness :
    is_similar_filename ["IMG123.JPG".toList] = Except.error StackError.invalidArity ∧
    ∃ c, is_similar_filename ["IMG123.JPG".toList, "IMG123.RAW".toList] = Except.ok c :=
  ⟨(is_similar_filename_arity _).1 (by decide),
   (is_similar_filename_arity _).2 (by decide)⟩

/-! ### Claims about effective-name resolution -/

/-- C6 counterexample: an asset whose `originalPath` field is present
but is the empty string resolves to its `filename` field, because
Python's `or` treats the empty string as falsy; the claim's "preferred
whenever present" fails here. -/
theorem effectiveName_counterexample :
    (Asset.mk none (some []) (some "x.jpg".toList)).originalPath = some [] ∧
    effectiveName (Asset.mk none (some []) (some "x.jpg".toList)) = "x.jpg".toList ∧
    "x.jpg".toList ≠ ([] : Str) :=
  ⟨rfl, rfl, by decide⟩

/-- C6 amended: the effective name is the `originalPath` field when
present and non-empty; else the `filename` field when present and
non-empty; else the empty string. -/
theorem effectiveName_ordered_fallback (a : Asset) :
    (∀ p, a.originalPath = some p → p ≠ [] → effectiveName a = p) ∧
    (∀ q, (a.originalPath = none ∨ a.originalPath = some []) → a.filename = some q →
      q ≠ [] → effectiveName a = q) ∧
    ((a.originalPath = none ∨ a.originalPath = some []) →
      (a.filename = none ∨ a.filename = some []) → effectiveName a = []) := by
  obtain ⟨i, op, fn⟩ := a
  refine ⟨?_, ?_, ?_⟩
  · rintro p rfl hp
    simp [effectiveName, pyOr, hp]
  · rintro q (rfl | rfl) rfl hq <;> simp [effectiveName, pyOr, hq]
  · rintro (rfl | rfl) (rfl | rfl) <;> simp [effectiveName, pyOr]

/-- C6 witness: a present non-empty original path wins over a present
filename. -/
theorem effectiveName_ordered_fallback_witness :
    effectiveName (Asset.mk none (some "a/b.jpg".toList) (some "c.raw".toList)) =
      "a/b.jpg".toList :=
  (effectiveName_ordered_fallback _).1 _ rfl (by decide)

/-! ### Claims about pair filtering and ordering -/

/-- Computation of `filter_dupe_pairs` on a singleton matched group
(shared helper). -/
theorem filter_dupe_pairs_singleton (a0 a1 : Asset)
    (hsim : is_similar_filename [effectiveName a0, effectiveName a1] = Except.ok true) :
    filter_dupe_pairs [{ assets := some [a0, a1] }] = Except.ok [orderedResult a0 a1] := by
  rw [show filter_dupe_pairs [{ assets := some [a0, a1] }] =
      (match is_similar_filename [effectiveName a0, effectiveName a1] with
        | Except.error e => Except.error e
        | Except.ok false => filter_dupe_pairs []
        | Except.ok true =>
            match filter_dupe_pairs [] with
            | Except.error e => Except.error e
            | Except.ok tail => Except.ok (orderedResult a0 a1 :: tail)) from rfl]
  rw [hsim]
  rfl

/-- C3: for a matched pair, ordering is a function of the two lowercased
extensions: if exactly one is in the preferred set, that asset is
primary (first in ids, paths and exts) regardless of input position; if
both or neither is, input order is preserved. -/
theorem primary_ordering (a0 a1 : Asset)
    (hsim : is_similar_filename [effectiveName a0, effectiveName a1] = Except.ok true) :
    (extLowerOf (effectiveName a1) ∈ PREFERRED_PRIMARY_EXTS ∧
        extLowerOf (effectiveName a0) ∉ PREFERRED_PRIMARY_EXTS →
      filter_dupe_pairs [{ assets := some [a0, a1] }] = Except.ok
        [{ ids := [a1.id, a0.id], paths := [effectiveName a1, effectiveName a0],
           exts := [extLowerOf (effectiveName a1), extLowerOf (effectiveName a0)] }]) ∧
    (extLowerOf (effectiveName a0) ∈ PREFERRED_PRIMARY_EXTS ∧
        extLowerOf (effectiveName a1) ∉ PREFERRED_PRIMARY_EXTS →
      filter_dupe_pairs [{ assets := some [a0, a1] }] = Except.ok
        [{ ids := [a0.id, a1.id], paths := [effectiveName a0, effectiveName a1],
           exts := [extLowerOf (effectiveName a0), extLowerOf (effectiveName a1)] }]) ∧
    ((extLowerOf (effectiveName a0) ∈ PREFERRED_PRIMARY_EXTS ↔
        extLowerOf (effectiveName a1) ∈ PREFERRED_PRIMARY_EXTS) →
      filter_dupe_pairs [{ assets := some [a0, a1] }] = Except.ok
        [{ ids := [a0.id, a1.id], paths := [effectiveName a0, effectiveName a1],
           exts := [extLowerOf (effectiveName a0), extLowerOf (effectiveName a1)] }]) := by
  refine ⟨?_, ?_, ?_⟩
  · rintro ⟨h1, h0⟩
    rw [filter_dupe_pairs_singleton a0 a1 hsim]
    unfold orderedResult
    rw [show primary_index (extLowerOf (effectiveName a0)) (extLowerOf (effectiveName a1)) = 1
        from by unfold primary_index; rw [if_pos ⟨h1, h0⟩]]
    rw [if_pos rfl]
  · rintro ⟨h0, h1⟩
    rw [filter_dupe_pairs_singleton a0 a1 hsim]
    unfold orderedResult
    rw [show primary_index (extLowerOf (effectiveName a0)) (extLowerOf (effectiveName a1)) = 0
        from by
      unfold primary_index
      rw [if_neg (fun hc => h1 hc.1), if_pos ⟨h0, h1⟩]]
    rw [if_neg (by decide)]
  · intro hiff
    rw [filter_dupe_pairs_singleton a0 a1 hsim]
    unfold orderedResult
    rw [show primary_index (extLowerOf (effectiveName a0)) (extLowerOf (effectiveName a1)) = 0
        from by
      unfold primary_index
      rw [if_neg (fun hc => hc.2 (hiff.mpr hc.1)), if_neg (fun hc => hc.2 (hiff.mp hc.1))]]
    rw [if_neg (by decide)]

/-- C3 witness: a `.dng`/`.jpg` pair in that input order is reordered so
the `.jpg` asset is primary. -/
theorem primary_ordering_witness :
    is_similar_filename
        [effectiveName (Asset.mk (some "A".toList) (some "c.dng".toList) none),
         effectiveName (Asset.mk (some "B".toList) (some "c.jpg".toList) none)] =
      Except.ok true ∧
    filter_dupe_pairs
        [{ assets := some [Asset.mk (some "A".toList) (some "c.dng".toList) none,
                           Asset.mk (some "B".toList) (some "c.jpg".toList) none] }] =
      Except.ok
        [{ ids := [some "B".toList, some "A".toList],
           paths := ["c.jpg".toList, "c.dng".toList],
           exts := [".jpg".toList, ".dng".toList] }] := by
  have hsim : is_similar_filename
      [effectiveName (Asset.mk (some "A".toList) (some "c.dng".toList) none),
       effectiveName (Asset.mk (some "B".toList) (some "c.jpg".toList) none)] =
      Except.ok true := rfl
  refine ⟨hsim, ?_⟩
  rw [(primary_ordering _ _ hsim).1 (by decide)]
  rfl

/-- C4: `filter_dupe_pairs` always succeeds and equals the ordered
`filterMap` of the per-group outcome: groups without exactly two assets
are skipped, matching two-asset groups contribute exactly one record,
and output order follows input group order. -/
theorem filter_dupe_pairs_total (gs : List Group) :
    filter_dupe_pairs gs = Except.ok (gs.filterMap processGroup) ∧
    (∀ g : Group, (g.assets.getD []).length ≠ 2 → processGroup g = none) ∧
    (∀ g : Group, ∀ a0 a1, g.assets.getD [] = [a0, a1] →
      is_similar_filename [effectiveName a0, effectiveName a1] = Except.ok true →
      ∃ r, processGroup g = some r) := by
  refine ⟨?_, ?_, ?_⟩
  · induction gs with
    | nil => rfl
    | cons g rest ih =>
        rw [List.filterMap_cons]
        rcases hassets : g.assets.getD [] with _ | ⟨a0, _ | ⟨a1, _ | ⟨a2, t⟩⟩⟩
        · simp only [filter_dupe_pairs, processGroup, hassets]
          exact ih
        · simp only [filter_dupe_pairs, processGroup, hassets]
          exact ih
        · obtain ⟨c, hc⟩ := similar_pair_ok (effectiveName a0) (effectiveName a1)
          cases c with
          | false =>
              simp only [filter_dupe_pairs, processGroup, hassets, hc]
              exact ih
          | true =>
              simp only [filter_dupe_pairs, processGroup, hassets, hc, ih]
        · simp only [filter_dupe_pairs, processGroup, hassets]
          exact ih
  · intro g h
    rcases hassets : g.assets.getD [] with _ | ⟨a0, _ | ⟨a1, _ | ⟨a2, t⟩⟩⟩
    · simp only [processGroup, hassets]
    · simp only [processGroup, hassets]
    · rw [hassets] at h
      simp at h
    · simp only [processGroup, hassets]
  · intro g a0 a1 hassets hsim
    simp only [processGroup, hassets, hsim]
    exact ⟨_, rfl⟩

/-- C4 witness: a one-asset group is skipped, a matching two-asset group
contributes one record, and the whole run succeeds. -/
theorem filter_dupe_pairs_total_witness :
    filter_dupe_pairs
        [{ assets := some [Asset.mk (some "X".toList) (some "solo.jpg".toList) none] },
         { assets := some [Asset.mk (some "A".toList) (some "p.raw".toList) none,
                           Asset.mk (some "B".toList) (some "p.jpg".toList) none] }] =
      Except.ok
        (([{ assets := some [Asset.mk (some "X".toList) (some "solo.jpg".toList) none] },
           { assets := some [Asset.mk (some "A".toList) (some "p.raw".toList) none,
                             Asset.mk (some "B".toList) (some "p.jpg".toList) none] }] :
            List Group).filterMap processGroup) ∧
    processGroup { assets := some [Asset.mk (some "X".toList) (some "solo.jpg".toList) none] } =
      none ∧
    ∃ r, processGroup
        { assets := some [Asset.mk (some "A".toList) (some "p.raw".toList) none,
                          Asset.mk (some "B".toList) (some "p.jpg".toList) none] } = some r :=
  ⟨(filter_dupe_pairs_total _).1,
   (filter_dupe_pairs_total []).2.1 _ (by decide),
   (filter_dupe_pairs_total []).2.2 _
     (Asset.mk (some "A".toList) (some "p.raw".toList) none)
     (Asset.mk (some "B".toList) (some "p.jpg".toList) none) rfl rfl⟩

/-! ### Claims about the album-derived candidate feed -/

theorem strLe_total : ∀ a b : Str, (strLe a b || strLe b a) = true
  | [], b => by simp [strLe]
  | a :: as, [] => by simp [strLe]
  | a :: as, b :: bs => by
      unfold strLe
      rcases lt_trichotomy a b with h | h | h
      · rw [if_pos h]
        simp
      · subst h
        simp only [if_neg (lt_irrefl a)]
        exact strLe_total as bs
      · rw [if_neg (asymm h), if_pos h, if_pos h]
        simp

theorem strLe_trans :
    ∀ a b c : Str, strLe a b = true → strLe b c = true → strLe a c = true
  | [], _, _, _, _ => by simp [strLe]
  | a :: as, [], _, hab, _ => by
      rw [show strLe (a :: as) [] = false from rfl] at hab
      exact absurd hab (by simp)
  | a :: as, b :: bs, [], _, hbc => by
      rw [show strLe (b :: bs) [] = false from rfl] at hbc
      exact absurd hbc (by simp)
  | a :: as, b :: bs, c :: cs, hab, hbc => by
      unfold strLe at hab hbc ⊢
      have hab' : a < b ∨ (a = b ∧ strLe as bs = true) := by
        rcases lt_trichotomy a b with h | h | h
        · exact Or.inl h
        · subst h
          rw [if_neg (lt_irrefl a), if_neg (lt_irrefl a)] at hab
          exact Or.inr ⟨rfl, hab⟩
        · rw [if_neg (asymm h), if_pos h] at hab
          exact absurd hab (by simp)
      have hbc' : b < c ∨ (b = c ∧ strLe bs cs = true) := by
        rcases lt_trichotomy b c with h | h | h
        · exact Or.inl h
        · subst h
          rw [if_neg (lt_irrefl b), if_neg (lt_irrefl b)] at hbc
          exact Or.inr ⟨rfl, hbc⟩
        · rw [if_neg (asymm h), if_pos h] at hbc
          exact absurd hbc (by simp)
      rcases hab' with h1 | ⟨he1, hr1⟩
      · rcases hbc' with h2 | ⟨he2, hr2⟩
        · rw [if_pos (lt_trans h1 h2)]
        · subst he2
          rw [if_pos h1]
      · subst he1
        rcases hbc' with h2 | ⟨he2, hr2⟩
        · rw [if_pos h2]
        · subst he2
          rw [if_neg (lt_irrefl a), if_neg (lt_irrefl a)]
          exact strLe_trans as bs cs hr1 hr2

/-- C9: the album feed sorts the assets by `originalPath` (a permutation
of the input, pairwise ordered by the path key) and emits exactly
`n - 1` overlapping adjacent groups, the `i`-th holding the sorted
assets at positions `i` and `i + 1` with `duplicateId = i + 1`. -/
theorem album_adjacent_pairs (l : List AlbumAsset) :
    (get_assets_in_album l).length = l.length - 1 ∧
    (sortedByPath l).Perm l ∧
    (sortedByPath l).Pairwise (fun a b => strLe a.originalPath b.originalPath = true) ∧
    (∀ i, i < l.length - 1 →
      ∃ a b, (sortedByPath l)[i]? = some a ∧ (sortedByPath l)[i + 1]? = some b ∧
        (get_assets_in_album l)[i]? = some { duplicateId := i + 1, assets := (a, b) }) := by
  have hlen : (sortedByPath l).length = l.length := by
    unfold sortedByPath
    exact List.length_mergeSort l
  refine ⟨?_, ?_, ?_, ?_⟩
  · unfold get_assets_in_album
    rw [List.length_map, List.length_range, hlen]
  · exact List.mergeSort_perm l _
  · exact List.sorted_mergeSort
      (fun a b c hab hbc => strLe_trans a.originalPath b.originalPath c.originalPath hab hbc)
      (fun a b => strLe_total a.originalPath b.originalPath) l
  · intro i hi
    have hi1 : i < (sortedByPath l).length := by omega
    have hi2 : i + 1 < (sortedByPath l).length := by omega
    have hd1 : (sortedByPath l).getD i default = (sortedByPath l)[i] := by
      rw [List.getD_eq_getElem?_getD, List.getElem?_eq_getElem hi1]
      rfl
    have hd2 : (sortedByPath l).getD (i + 1) default = (sortedByPath l)[i + 1] := by
      rw [List.getD_eq_getElem?_getD, List.getElem?_eq_getElem hi2]
      rfl
    refine ⟨(sortedByPath l)[i], (sortedByPath l)[i + 1],
      List.getElem?_eq_getElem hi1, List.getElem?_eq_getElem hi2, ?_⟩
    unfold get_assets_in_album
    rw [List.getElem?_map, List.getElem?_range (by omega)]
    simp only [Option.map_some']
    rw [hd1, hd2]

/-- C9 witness: a three-asset album yields two overlapping pairs; the
first pair consists of the two path-smallest assets. -/
theorem album_adjacent_pairs_witness :
    ∃ a b,
      (sortedByPath [AlbumAsset.mk (some "1".toList) "b.jpg".toList none,
        AlbumAsset.mk (some "2".toList) "a.jpg".toList none,
        AlbumAsset.mk (some "3".toList) "c.jpg".toList none])[0]? = some a ∧
      (sortedByPath [AlbumAsset.mk (some "1".toList) "b.jpg".toList none,
        AlbumAsset.mk (some "2".toList) "a.jpg".toList none,
        AlbumAsset.mk (some "3".toList) "c.jpg".toList none])[1]? = some b ∧
      (get_assets_in_album [AlbumAsset.mk (some "1".toList) "b.jpg".toList none,
        AlbumAsset.mk (some "2".toList) "a.jpg".toList none,
        AlbumAsset.mk (some "3".toList) "c.jpg".toList none])[0]? =
        some { duplicateId := 1, assets := (a, b) } :=
  (album_adjacent_pairs _).2.2.2 0 (by decide)

end ImmichStack
